import Mathlib

/-!
# Numeric predicates of `qss_integrator/src/mathUtils.h`

The header defines three inline functions in `namespace mathUtils`:

* `int sign(double x)`            -- `(x > 0) - (x < 0)`
* `bool notnan(const dvec& v)`    -- early-exit index loop over a `std::vector<double>`
* `bool notnan(double v)`         -- `(v > 0 || v <= 0)`

All three only ever *compare* doubles against the literal `0`.  A double is
modelled by its IEEE-754 binary64 bit fields and the comparisons by the IEEE
ordered relations (every comparison with a NaN operand is false, the two zeros
compare equal).  No rounding is involved anywhere in the header, so the model of
the comparisons is exact.  `Double.toRat` gives the rational number a finite
double represents, and `Double.toRat_lt_iff` shows that the comparison key used
by the ordered relations orders doubles as those numbers.

`Double.negate` (IEEE unary minus) and `Double.eq` (IEEE `==`) do not occur in
the header; they are the operations of the language in which the algebraic
properties of `sign` and `notnan` are stated.

The sequence function is given twice: as the recursive function `notnanFrom`
(the loop read as a function of the index) and as the step machine `runLoop`,
which logs element accesses and iterations; `runLoop_from` relates the two.
-/

namespace mathUtils

/-! ## IEEE-754 binary64 values and ordered comparisons -/

/-- A C++ `double`: sign bit, 11-bit biased exponent, 52-bit fraction. -/
structure Double where
  /-- The sign bit (`true` = negative). -/
  neg : Bool
  /-- The biased exponent field. -/
  expo : Fin 2048
  /-- The fraction (trailing significand) field. -/
  mant : Fin 4503599627370496
  deriving DecidableEq

namespace Double

/-- NaN: exponent all ones, fraction non-zero. -/
def isNaN (x : Double) : Bool := x.expo.val == 2047 && x.mant.val != 0

/-- An infinity: exponent all ones, fraction zero. -/
def isInf (x : Double) : Bool := x.expo.val == 2047 && x.mant.val == 0

/-- A finite value: exponent field below all ones. -/
def isFinite (x : Double) : Bool := decide (x.expo.val < 2047)

/-- A zero (of either sign): exponent and fraction both zero. -/
def isZero (x : Double) : Bool := x.expo.val == 0 && x.mant.val == 0

/-- The magnitude bits read as one 63-bit unsigned number.  On non-NaN values
this is strictly monotone in the absolute value represented. -/
def mag (x : Double) : Nat := x.expo.val * 4503599627370496 + x.mant.val

/-- The magnitude in units of `2^-1074` (the least subnormal): the fraction
itself for exponent field `0`, and `(2^52 + fraction) * 2^(exponent - 1)`
otherwise. -/
def scaled (x : Double) : Nat :=
  if x.expo.val = 0 then x.mant.val
  else (4503599627370496 + x.mant.val) * 2 ^ (x.expo.val - 1)

/-- The rational number a finite double represents.  (On the infinities the
formula gives `±2^1024`, beyond every finite double.) -/
def toRat (x : Double) : ℚ :=
  (if x.neg then -(x.scaled : ℚ) else (x.scaled : ℚ)) / (2 : ℚ) ^ 1074

/-- Sign-magnitude key: for non-NaN values the order of the keys is the order
of the represented extended reals, with both zeros at key `0`. -/
def key (x : Double) : Int := if x.neg then -(x.mag : Int) else (x.mag : Int)

/-- IEEE `x < y`: false when either operand is NaN. -/
def lt (x y : Double) : Bool := !x.isNaN && !y.isNaN && decide (x.key < y.key)

/-- IEEE `x <= y`: false when either operand is NaN. -/
def le (x y : Double) : Bool := !x.isNaN && !y.isNaN && decide (x.key ≤ y.key)

/-- IEEE `x > y`, i.e. `y < x`. -/
def gt (x y : Double) : Bool := lt y x

/-- IEEE `x == y`: false when either operand is NaN, otherwise equality of the
represented values (so `+0.0 == -0.0`). -/
def eq (x y : Double) : Bool := !x.isNaN && !y.isNaN && decide (x.key = y.key)

/-- IEEE negation `-x`: the sign bit is flipped, the other fields are kept (also
on NaN, the zeros and the infinities). -/
def negate (x : Double) : Double := { x with neg := !x.neg }

/-- The value `+0.0`; the `int` literal `0` of the header converts to it. -/
def posZero : Double := ⟨false, 0, 0⟩

/-- The value `-0.0`. -/
def negZero : Double := ⟨true, 0, 0⟩

/-- The value `+inf`. -/
def posInf : Double := ⟨false, 2047, 0⟩

/-- The value `-inf`. -/
def negInf : Double := ⟨true, 2047, 0⟩

/-- The default quiet NaN (fraction `2^51`). -/
def qNaN : Double := ⟨false, 2047, 2251799813685248⟩

/-- The value `1.0`. -/
def one : Double := ⟨false, 1023, 0⟩

/-- The value `-2.5`. -/
def negTwoPointFive : Double := ⟨true, 1024, 1125899906842624⟩

/-- The value `3.0`. -/
def three : Double := ⟨false, 1024, 2251799813685248⟩

/-- The value `1e308` (bits `0x7FE1CCF385EBC8A0`). -/
def tenPow308 : Double := ⟨false, 2046, 506821272651936⟩

end Double

/-- Conversion `bool -> int` applied by C++ to the operands of `-`. -/
def boolToInt (b : Bool) : Int := if b then 1 else 0

/-! ## The three functions of the header -/

/-- Source: `inline int sign(double x) { return (x > 0) - (x < 0); }`. -/
def sign (x : Double) : Int :=
  boolToInt (Double.gt x Double.posZero) - boolToInt (Double.lt x Double.posZero)

/-- Source: `inline bool notnan(double v) { return (v > 0 || v <= 0); }`. -/
def notnan (v : Double) : Bool :=
  Double.gt v Double.posZero || Double.le v Double.posZero

/-- The test of the `if` inside the loop: `!(v[i] > 0) && !(v[i] <= 0)`. -/
def loopTest (a : Double) : Bool :=
  !(Double.gt a Double.posZero) && !(Double.le a Double.posZero)

/-- The loop of `notnan(const dvec&)` started at index `i`:
`for (; i < v.size(); i++) { if (!(v[i] > 0) && !(v[i] <= 0)) return false; } return true;`.
The index never exceeds `v.size()`, so the `size_t` increment cannot wrap. -/
def notnanFrom (v : Array Double) (i : Nat) : Bool :=
  if h : i < v.size then
    if loopTest (v.get ⟨i, h⟩) then false else notnanFrom v (i + 1)
  else true
termination_by v.size - i

/-- Source: `inline bool notnan(const dvec& v)`: the loop started at `i = 0`. -/
def notnanVec (v : Array Double) : Bool := notnanFrom v 0

/-- The specification's wording of the sequence check: every element of the
sequence passes the scalar check. -/
def allPassScalar (v : Array Double) : Bool := v.toList.all notnan

/-! ## The loop as a machine

To speak about the element accesses and the number of iterations, the loop of
`notnan(const dvec&)` is also given as a step function on an explicit state.
An access `v[i]` is a partial lookup: outside the bounds the step reports
`outOfBounds` (undefined behaviour of `std::vector::operator[]`). -/

/-- State of the running loop. -/
structure LoopState where
  /-- The caller's vector, as seen through the `const dvec&` parameter. -/
  vec : Array Double
  /-- The loop variable `size_t i`. -/
  i : Nat
  /-- Indices of the element accesses performed so far, oldest first. -/
  reads : List Nat
  /-- Number of loop bodies entered so far. -/
  iters : Nat
  deriving DecidableEq

/-- What one step (or a bounded run) of the loop ends in. -/
inductive Outcome where
  /-- The loop is still running (a bounded run: the step budget is used up). -/
  | running (s : LoopState)
  /-- The function executed `return b`. -/
  | returned (b : Bool) (s : LoopState)
  /-- An access `v[i]` with `i >= v.size()`. -/
  | outOfBounds (s : LoopState)
  deriving DecidableEq

/-- One evaluation of `v[i]`: the element, with the access logged. -/
def readElem (s : LoopState) : Option (Double × LoopState) :=
  match s.vec[s.i]? with
  | some a => some (a, { s with reads := s.reads ++ [s.i] })
  | none => none

/-- One pass through the loop header and body.  The condition
`!(v[i] > 0) && !(v[i] <= 0)` reads `v[i]` once for the left operand and, only
when `!(v[i] > 0)` holds, a second time for the right operand of `&&`. -/
def loopStep (s : LoopState) : Outcome :=
  if s.i < s.vec.size then
    let s1 := { s with iters := s.iters + 1 }
    match readElem s1 with
    | none => Outcome.outOfBounds s1
    | some (a, s2) =>
      if !(Double.gt a Double.posZero) then
        match readElem s2 with
        | none => Outcome.outOfBounds s2
        | some (b, s3) =>
          if !(Double.le b Double.posZero) then Outcome.returned false s3
          else Outcome.running { s3 with i := s3.i + 1 }
      else Outcome.running { s2 with i := s2.i + 1 }
  else Outcome.returned true s

/-- Run the loop for at most `fuel` passes. -/
def runLoop : Nat → LoopState → Outcome
  | 0, s => Outcome.running s
  | fuel + 1, s =>
    match loopStep s with
    | Outcome.running t => runLoop fuel t
    | o => o

/-- The state on entry to `notnan(const dvec&)`: `i = 0`, with whatever access
log and iteration count `r`, `c` earlier activity left behind. -/
def enterLoop (v : Array Double) (r : List Nat) (c : Nat) : LoopState :=
  { vec := v, i := 0, reads := r, iters := c }

end mathUtils

namespace mathUtils

/-! ## Comparisons against the literal `0` -/

theorem Double.gt_zero_eq (x : Double) :
    Double.gt x Double.posZero = (!x.isNaN && decide (0 < x.key)) := by
  simp [Double.gt, Double.lt, Double.posZero, Double.isNaN, Double.key, Double.mag]

theorem Double.lt_zero_eq (x : Double) :
    Double.lt x Double.posZero = (!x.isNaN && decide (x.key < 0)) := by
  simp [Double.lt, Double.posZero, Double.isNaN, Double.key, Double.mag]

theorem Double.le_zero_eq (x : Double) :
    Double.le x Double.posZero = (!x.isNaN && decide (x.key ≤ 0)) := by
  simp [Double.le, Double.posZero, Double.isNaN, Double.key, Double.mag]

/-- The scalar check is exactly "not NaN". -/
theorem notnan_eq_not_isNaN (x : Double) : notnan x = !x.isNaN := by
  rw [notnan, Double.gt_zero_eq, Double.le_zero_eq]
  cases x.isNaN <;> simp
  exact lt_or_le 0 x.key

/-- The loop's inline test is exactly "is NaN". -/
theorem loopTest_eq_isNaN (x : Double) : loopTest x = x.isNaN := by
  rw [loopTest, Double.gt_zero_eq, Double.le_zero_eq]
  cases x.isNaN <;> simp


theorem Double.key_pos_iff (x : Double) :
    0 < x.key ↔ (x.neg = false ∧ x.isZero = false) := by
  rcases x with ⟨n, e, m⟩
  cases n <;> simp [Double.key, Double.mag, Double.isZero] <;> omega

theorem Double.key_neg_iff (x : Double) :
    x.key < 0 ↔ (x.neg = true ∧ x.isZero = false) := by
  rcases x with ⟨n, e, m⟩
  cases n <;> simp [Double.key, Double.mag, Double.isZero] <;> omega

theorem Double.key_eq_zero_iff (x : Double) : x.key = 0 ↔ x.isZero = true := by
  rcases x with ⟨n, e, m⟩
  cases n <;> simp [Double.key, Double.mag, Double.isZero] <;> omega

/-- Sign-bit reading of `x > 0`: not NaN, sign bit clear, not a zero. -/
theorem Double.gt_zero_bits (x : Double) :
    Double.gt x Double.posZero = (!x.isNaN && !x.neg && !x.isZero) := by
  rw [Double.gt_zero_eq, Bool.and_assoc]
  congr 1
  rw [Bool.eq_iff_iff]
  simp [Double.key_pos_iff]

/-- Sign-bit reading of `x < 0`: not NaN, sign bit set, not a zero. -/
theorem Double.lt_zero_bits (x : Double) :
    Double.lt x Double.posZero = (!x.isNaN && x.neg && !x.isZero) := by
  rw [Double.lt_zero_eq, Bool.and_assoc]
  congr 1
  rw [Bool.eq_iff_iff]
  simp [Double.key_neg_iff]

/-! ## The comparison keys order doubles as the numbers they represent -/

theorem scaled_fields_lt_of_mag_lt (e1 m1 e2 m2 : Nat)
    (h1 : m1 < 4503599627370496) (h2 : m2 < 4503599627370496)
    (h : e1 * 4503599627370496 + m1 < e2 * 4503599627370496 + m2) :
    (if e1 = 0 then m1 else (4503599627370496 + m1) * 2 ^ (e1 - 1))
      < (if e2 = 0 then m2 else (4503599627370496 + m2) * 2 ^ (e2 - 1)) := by
  rcases Nat.lt_trichotomy e1 e2 with he | he | he
  · have he2 : e2 ≠ 0 := by omega
    have hy : 4503599627370496 * 2 ^ (e2 - 1) ≤ (4503599627370496 + m2) * 2 ^ (e2 - 1) :=
      Nat.mul_le_mul_right _ (by omega)
    have hp : 0 < 2 ^ (e2 - 1) := Nat.pow_pos (by decide)
    rw [if_neg he2]
    by_cases h0 : e1 = 0
    · rw [if_pos h0]
      have : 4503599627370496 * 1 ≤ 4503599627370496 * 2 ^ (e2 - 1) :=
        Nat.mul_le_mul_left _ hp
      omega
    · rw [if_neg h0]
      have hpow : 2 ^ (e1 - 1) * 2 ≤ 2 ^ (e2 - 1) := by
        rw [← Nat.pow_succ]
        exact Nat.pow_le_pow_right (by decide) (by omega)
      have hq : 0 < 2 ^ (e1 - 1) := Nat.pow_pos (by decide)
      have hx : (4503599627370496 + m1) * 2 ^ (e1 - 1)
          < (4503599627370496 * 2) * 2 ^ (e1 - 1) :=
        Nat.mul_lt_mul_of_pos_right (by omega) hq
      have hz : 4503599627370496 * (2 ^ (e1 - 1) * 2) ≤ 4503599627370496 * 2 ^ (e2 - 1) :=
        Nat.mul_le_mul_left _ hpow
      have : 4503599627370496 * 2 * 2 ^ (e1 - 1)
          = 4503599627370496 * (2 ^ (e1 - 1) * 2) := by ring
      omega
  · subst he
    have hm : m1 < m2 := by omega
    by_cases h0 : e1 = 0
    · simp [h0, hm]
    · rw [if_neg h0, if_neg h0]
      exact Nat.mul_lt_mul_of_pos_right (by omega) (Nat.pow_pos (by decide))
  · exfalso
    have : (e2 + 1) * 4503599627370496 ≤ e1 * 4503599627370496 :=
      Nat.mul_le_mul_right _ he
    omega

theorem Double.scaled_lt_of_mag_lt (x y : Double) (h : x.mag < y.mag) :
    x.scaled < y.scaled :=
  scaled_fields_lt_of_mag_lt x.expo.val x.mant.val y.expo.val y.mant.val x.mant.isLt y.mant.isLt h

theorem Double.scaled_eq_of_mag_eq (x y : Double) (h : x.mag = y.mag) :
    x.scaled = y.scaled := by
  have hx := x.mant.isLt
  have hy := y.mant.isLt
  simp only [Double.mag] at h
  have he : x.expo.val = y.expo.val := by omega
  have hm : x.mant.val = y.mant.val := by omega
  simp [Double.scaled, he, hm]

theorem Double.scaled_lt_iff (x y : Double) : x.scaled < y.scaled ↔ x.mag < y.mag := by
  constructor
  · intro h
    rcases Nat.lt_trichotomy x.mag y.mag with hlt | heq | hgt
    · exact hlt
    · have := Double.scaled_eq_of_mag_eq x y heq
      omega
    · have := Double.scaled_lt_of_mag_lt y x hgt
      omega
  · exact Double.scaled_lt_of_mag_lt x y

/-- The key order is the order of the represented numbers. -/
theorem Double.toRat_lt_iff (x y : Double) : x.toRat < y.toRat ↔ x.key < y.key := by
  have hxy := Double.scaled_lt_iff x y
  have hyx := Double.scaled_lt_iff y x
  have hx0 := Double.scaled_lt_iff Double.posZero x
  have hy0 := Double.scaled_lt_iff Double.posZero y
  have hz : Double.posZero.scaled = 0 := by decide
  have hz2 : Double.posZero.mag = 0 := by decide
  rw [hz, hz2] at hx0 hy0
  have hpos : (0 : ℚ) < (2 : ℚ) ^ 1074 := by positivity
  have hq : ∀ a b : Int, ((a : ℚ) < (b : ℚ)) ↔ a < b := fun a b => Int.cast_lt
  have hcx : (if x.neg then -(x.scaled : ℚ) else (x.scaled : ℚ))
      = (((if x.neg then -(x.scaled : Int) else (x.scaled : Int)) : Int) : ℚ) := by
    cases x.neg <;> simp
  have hcy : (if y.neg then -(y.scaled : ℚ) else (y.scaled : ℚ))
      = (((if y.neg then -(y.scaled : Int) else (y.scaled : Int)) : Int) : ℚ) := by
    cases y.neg <;> simp
  rw [Double.toRat, Double.toRat, div_lt_div_iff_of_pos_right hpos, hcx, hcy, hq]
  simp only [Double.key]
  cases x.neg <;> cases y.neg <;> simp <;> omega

/-- The key order is the order of the represented numbers (non-strict form). -/
theorem Double.toRat_le_iff (x y : Double) : x.toRat ≤ y.toRat ↔ x.key ≤ y.key := by
  rw [← not_lt, ← not_lt, Double.toRat_lt_iff]

theorem Double.toRat_of_scaled (x : Double) (k : Nat) (hn : x.neg = false)
    (h : x.scaled = k * 2 ^ 1074) : x.toRat = k := by
  have hp : ((2 : ℚ) ^ 1074) ≠ 0 := pow_ne_zero _ (by norm_num)
  rw [Double.toRat, hn, h, if_neg (by decide), Nat.cast_mul, Nat.cast_pow, Nat.cast_ofNat]
  exact mul_div_cancel_right₀ _ hp

theorem Double.scaled_one : Double.one.scaled = 1 * 2 ^ 1074 := by
  have he : Double.one.expo.val - 1 = 1022 := by decide
  have hm : 4503599627370496 + Double.one.mant.val = 2 ^ 52 := by decide
  rw [Double.scaled, if_neg (by decide), he, hm, ← pow_add, one_mul]

theorem Double.scaled_three : Double.three.scaled = 3 * 2 ^ 1074 := by
  have he : Double.three.expo.val - 1 = 1023 := by decide
  have hm : 4503599627370496 + Double.three.mant.val = 3 * 2 ^ 51 := by decide
  rw [Double.scaled, if_neg (by decide), he, hm, mul_assoc, ← pow_add]

theorem Double.scaled_negTwoPointFive :
    Double.negTwoPointFive.scaled * 2 = 5 * 2 ^ 1074 := by
  have he : Double.negTwoPointFive.expo.val - 1 = 1023 := by decide
  have hm : 4503599627370496 + Double.negTwoPointFive.mant.val = 5 * 2 ^ 50 := by decide
  rw [Double.scaled, if_neg (by decide), he, hm, mul_assoc, mul_assoc, ← pow_succ,
    ← pow_add]

/-- The named constants represent the numbers they are named after. -/
theorem Double.toRat_constants :
    Double.one.toRat = 1 ∧ Double.three.toRat = 3
    ∧ Double.negTwoPointFive.toRat * 2 = -5
    ∧ Double.posZero.toRat = 0 ∧ Double.negZero.toRat = 0 := by
  have hp : ((2 : ℚ) ^ 1074) ≠ 0 := pow_ne_zero _ (by norm_num)
  refine ⟨?_, ?_, ?_, ?_, ?_⟩
  · exact_mod_cast Double.toRat_of_scaled Double.one 1 rfl Double.scaled_one
  · exact_mod_cast Double.toRat_of_scaled Double.three 3 rfl Double.scaled_three
  · have hq : (Double.negTwoPointFive.scaled : ℚ) * 2 = 5 * 2 ^ 1074 := by
      exact_mod_cast Double.scaled_negTwoPointFive
    have hneg : Double.negTwoPointFive.neg = true := rfl
    rw [Double.toRat, hneg]
    simp only [if_true]
    rw [div_mul_eq_mul_div, neg_mul, hq, ← neg_mul]
    exact mul_div_cancel_right₀ _ hp
  · simp [Double.toRat, show Double.posZero.scaled = 0 by decide]
  · simp [Double.toRat, show Double.negZero.scaled = 0 by decide]

/-- Equal keys are equal represented numbers. -/
theorem Double.toRat_eq_iff (x y : Double) : x.toRat = y.toRat ↔ x.key = y.key := by
  rw [le_antisymm_iff, le_antisymm_iff, Double.toRat_le_iff, Double.toRat_le_iff]

/-! ## Negation and the sign as a function of the key -/

theorem Double.isNaN_negate (x : Double) : (Double.negate x).isNaN = x.isNaN := rfl

theorem Double.key_negate (x : Double) : (Double.negate x).key = -x.key := by
  rcases x with ⟨n, e, m⟩
  cases n <;> simp [Double.negate, Double.key, Double.mag]

/-- The value of `sign`: `0` on NaN, otherwise the sign of the key. -/
theorem sign_eq_key_sign (x : Double) :
    sign x = if x.isNaN then 0 else Int.sign x.key := by
  rw [sign, Double.gt_zero_eq, Double.lt_zero_eq]
  cases x.isNaN
  · rcases lt_trichotomy x.key 0 with h | h | h
    · have h2 : ¬ 0 < x.key := by omega
      simp [boolToInt, h, h2, Int.sign_eq_neg_one_of_neg h]
    · simp [boolToInt, h]
    · have h2 : ¬ x.key < 0 := by omega
      simp [boolToInt, h, h2, Int.sign_eq_one_of_pos h]
  · simp [boolToInt]

theorem int_sign_mono (a b : Int) (h : a ≤ b) : Int.sign a ≤ Int.sign b := by
  rcases lt_trichotomy a 0 with ha | ha | ha
  · rw [Int.sign_eq_neg_one_of_neg ha]
    rcases lt_trichotomy b 0 with hb | hb | hb
    · rw [Int.sign_eq_neg_one_of_neg hb]
    · rw [hb]; decide
    · rw [Int.sign_eq_one_of_pos hb]; decide
  · subst ha
    rcases lt_or_eq_of_le h with hb | hb
    · rw [Int.sign_eq_one_of_pos hb]; decide
    · rw [← hb]
  · rw [Int.sign_eq_one_of_pos ha, Int.sign_eq_one_of_pos (lt_of_lt_of_le ha h)]

/-! ## The sequence loop as a fold over the remaining elements -/

theorem notnanFrom_eq_all (v : Array Double) (n i : Nat) (hn : v.size - i = n) :
    notnanFrom v i = (v.toList.drop i).all (fun x => !loopTest x) := by
  induction n generalizing i with
  | zero =>
    rw [notnanFrom]
    have hi : ¬ i < v.size := by omega
    have hd : v.toList.drop i = [] := List.drop_eq_nil_of_le (by simpa using Nat.le_of_not_lt hi)
    simp [hi, hd]
  | succ k ih =>
    have hi : i < v.size := by omega
    have hl : i < v.toList.length := by simpa using hi
    rw [notnanFrom, dif_pos hi, List.drop_eq_getElem_cons hl, List.all_cons,
      ← ih (i + 1) (by omega)]
    have hg : v.get ⟨i, hi⟩ = v.toList[i] := by simp
    rw [hg]
    cases loopTest v.toList[i] <;> simp

theorem notnanVec_eq_all (v : Array Double) :
    notnanVec v = v.toList.all (fun x => !loopTest x) := by
  rw [notnanVec, notnanFrom_eq_all v (v.size - 0) 0 rfl, List.drop_zero]

theorem notnanVec_eq_all_not_isNaN (v : Array Double) :
    notnanVec v = v.toList.all (fun x => !x.isNaN) := by
  rw [notnanVec_eq_all]
  congr 1
  funext x
  rw [loopTest_eq_isNaN]

/-! ## The loop machine -/

theorem readElem_of_lt (s : LoopState) (h : s.i < s.vec.size) :
    readElem s = some (s.vec[s.i], { s with reads := s.reads ++ [s.i] }) := by
  simp [readElem, Array.getElem?_eq_getElem h]

/-- Past the end the loop returns `true` without touching the vector. -/
theorem loopStep_of_not_lt (s : LoopState) (h : ¬ s.i < s.vec.size) :
    loopStep s = Outcome.returned true s := by
  simp [loopStep, h]

/-- On a NaN element the body returns `false` after reading `v[i]` twice. -/
theorem loopStep_of_test (s : LoopState) (h : s.i < s.vec.size)
    (ht : loopTest s.vec[s.i] = true) :
    loopStep s = Outcome.returned false
      { vec := s.vec, i := s.i, reads := s.reads ++ [s.i] ++ [s.i], iters := s.iters + 1 } := by
  have h1 := readElem_of_lt { s with iters := s.iters + 1 } h
  have h2 := readElem_of_lt { s with iters := s.iters + 1, reads := s.reads ++ [s.i] } h
  simp only [loopTest, Bool.and_eq_true] at ht
  simp only [loopStep, h, if_true, h1, h2, ht.1, ht.2]

/-- On a non-NaN element the body advances `i`, having read `v[i]` once or twice. -/
theorem loopStep_of_not_test (s : LoopState) (h : s.i < s.vec.size)
    (ht : loopTest s.vec[s.i] = false) :
    ∃ r, (∀ j ∈ r, j = s.i) ∧ loopStep s = Outcome.running
      { vec := s.vec, i := s.i + 1, reads := s.reads ++ r, iters := s.iters + 1 } := by
  have h1 := readElem_of_lt { s with iters := s.iters + 1 } h
  have h2 := readElem_of_lt { s with iters := s.iters + 1, reads := s.reads ++ [s.i] } h
  cases hg : Double.gt s.vec[s.i] Double.posZero with
  | true =>
    refine ⟨[s.i], by simp, ?_⟩
    simp [loopStep, h, h1, hg]
  | false =>
    have hl : Double.le s.vec[s.i] Double.posZero = true := by
      simpa [loopTest, hg] using ht
    refine ⟨[s.i] ++ [s.i], by simp, ?_⟩
    simp [loopStep, h, h1, h2, hg, hl]

theorem notnanFrom_of_not_lt (v : Array Double) (i : Nat) (h : ¬ i < v.size) :
    notnanFrom v i = true := by
  rw [notnanFrom, dif_neg h]

theorem notnanFrom_of_test (v : Array Double) (i : Nat) (h : i < v.size)
    (ht : loopTest v[i] = true) : notnanFrom v i = false := by
  rw [notnanFrom, dif_pos h]
  simp [ht]

theorem notnanFrom_of_not_test (v : Array Double) (i : Nat) (h : i < v.size)
    (ht : loopTest v[i] = false) : notnanFrom v i = notnanFrom v (i + 1) := by
  rw [notnanFrom, dif_pos h]
  simp [ht]

theorem runLoop_succ_running (fuel : Nat) (s t : LoopState)
    (h : loopStep s = Outcome.running t) : runLoop (fuel + 1) s = runLoop fuel t := by
  simp [runLoop, h]

theorem runLoop_succ_returned (fuel : Nat) (s t : LoopState) (b : Bool)
    (h : loopStep s = Outcome.returned b t) :
    runLoop (fuel + 1) s = Outcome.returned b t := by
  simp [runLoop, h]

/-- Started anywhere inside the vector with enough fuel, the machine returns
what the loop function computes, and its trace is as described. -/
theorem runLoop_from (n k : Nat) (s : LoopState) (hle : s.i ≤ s.vec.size)
    (hn : s.vec.size - s.i = n) :
    ∃ t acc, runLoop (n + 1 + k) s = Outcome.returned (notnanFrom s.vec s.i) t
      ∧ t.vec = s.vec
      ∧ t.reads = s.reads ++ acc
      ∧ (∀ j ∈ acc, s.i ≤ j ∧ j < s.vec.size)
      ∧ s.i ≤ t.i
      ∧ (∀ j, s.i ≤ j → j < t.i → (s.vec[j]?).map Double.isNaN = some false)
      ∧ (s.vec[t.i]?).map Double.isNaN
          = (if notnanFrom s.vec s.i then none else some true)
      ∧ t.iters = s.iters + (t.i - s.i) + (if notnanFrom s.vec s.i then 0 else 1) := by
  induction n generalizing s with
  | zero =>
    have hi : ¬ s.i < s.vec.size := by omega
    refine ⟨s, [], ?_, rfl, by simp, by simp, le_refl _, ?_, ?_, ?_⟩
    · rw [notnanFrom_of_not_lt _ _ hi, show 0 + 1 + k = k + 1 by omega]
      exact runLoop_succ_returned k s s true (loopStep_of_not_lt s hi)
    · intro j h1 h2
      omega
    · rw [notnanFrom_of_not_lt _ _ hi]
      simp
      omega
    · rw [notnanFrom_of_not_lt _ _ hi]
      simp
  | succ m ih =>
    have hi : s.i < s.vec.size := by omega
    cases ht : loopTest s.vec[s.i] with
    | true =>
      refine ⟨LoopState.mk s.vec s.i (s.reads ++ [s.i] ++ [s.i]) (s.iters + 1),
        [s.i] ++ [s.i], ?_, rfl, by simp, ?_, le_refl _, ?_, ?_, ?_⟩
      · rw [notnanFrom_of_test _ _ hi ht, show m + 1 + 1 + k = (m + 1 + k) + 1 by omega]
        exact runLoop_succ_returned _ s _ false (loopStep_of_test s hi ht)
      · intro j hj
        simp at hj
        omega
      · intro j h1 h2
        simp at h2
        omega
      · rw [notnanFrom_of_test _ _ hi ht]
        simp [Array.getElem?_eq_getElem hi, ← loopTest_eq_isNaN, ht]
      · rw [notnanFrom_of_test _ _ hi ht]
        simp
    | false =>
      obtain ⟨r, hr, hstep⟩ := loopStep_of_not_test s hi ht
      obtain ⟨t, acc, hrun, hvec, hreads, hacc, hti, hpre, hat, hiters⟩ :=
        ih { vec := s.vec, i := s.i + 1, reads := s.reads ++ r, iters := s.iters + 1 }
          (by simpa using hi) (by simp; omega)
      simp only at hrun hvec hreads hacc hti hpre hat hiters
      refine ⟨t, r ++ acc, ?_, hvec, by rw [hreads, List.append_assoc], ?_, by omega,
        ?_, ?_, ?_⟩
      · rw [notnanFrom_of_not_test _ _ hi ht, show m + 1 + 1 + k = (m + 1 + k) + 1 by omega,
          runLoop_succ_running _ _ _ hstep]
        exact hrun
      · intro j hj
        rcases List.mem_append.mp hj with h | h
        · have := hr j h
          omega
        · have := hacc j h
          omega
      · intro j h1 h2
        rcases Nat.eq_or_lt_of_le h1 with h | h
        · subst h
          simp [Array.getElem?_eq_getElem hi, ← loopTest_eq_isNaN, ht]
        · exact hpre j h h2
      · rw [notnanFrom_of_not_test _ _ hi ht]
        exact hat
      · rw [notnanFrom_of_not_test _ _ hi ht, hiters]
        omega

theorem notnanVec_eq_false_iff (v : Array Double) :
    notnanVec v = false ↔ ∃ i : Nat, (v[i]?).map Double.isNaN = some true := by
  rw [notnanVec_eq_all_not_isNaN, List.all_eq_false]
  constructor
  · rintro ⟨x, hx, hnan⟩
    obtain ⟨i, hi⟩ := List.mem_iff_getElem?.mp hx
    refine ⟨i, ?_⟩
    rw [Array.getElem?_eq_getElem?_toList, hi]
    simpa using hnan
  · rintro ⟨i, hi⟩
    rw [Array.getElem?_eq_getElem?_toList] at hi
    cases hx : v.toList[i]? with
    | none => simp [hx] at hi
    | some x =>
      refine ⟨x, List.mem_iff_getElem?.mpr ⟨i, hx⟩, ?_⟩
      simpa [hx] using hi

/-- A bounded run that has ended keeps its outcome under any larger budget. -/
theorem runLoop_fuel_mono (f k : Nat) (s : LoopState) (o : Outcome)
    (hrun : runLoop f s = o) (hend : ∀ t, o ≠ Outcome.running t) :
    runLoop (f + k) s = o := by
  induction f generalizing s with
  | zero => exact absurd hrun.symm (hend s)
  | succ n ih =>
    rw [show n + 1 + k = (n + k) + 1 by omega]
    cases hstep : loopStep s with
    | running t =>
      rw [runLoop_succ_running _ _ _ hstep] at hrun ⊢
      exact ih t hrun
    | returned b t =>
      rw [runLoop_succ_returned _ _ _ _ hstep] at hrun ⊢
      exact hrun
    | outOfBounds t =>
      simp only [runLoop, hstep] at hrun ⊢
      exact hrun

theorem all_not_isNaN_perm (l m : List Double) (h : l.Perm m) :
    l.all (fun x => !x.isNaN) = m.all (fun x => !x.isNaN) := by
  rw [Bool.eq_iff_iff, List.all_eq_true, List.all_eq_true]
  exact ⟨fun hl x hx => hl x (h.mem_iff.mpr hx), fun hm x hx => hm x (h.mem_iff.mp hx)⟩

/-! ## The claims -/

/-- C1: for every double `x` (NaN, infinities and both zeros included), `sign x`
is `+1` if `x > 0`, `-1` if `x < 0` and `0` otherwise; the result always lies
in `{-1, 0, +1}`. -/
theorem sign_contract (x : Double) :
    sign x = (if Double.gt x Double.posZero then 1
              else if Double.lt x Double.posZero then -1 else 0)
    ∧ (sign x = -1 ∨ sign x = 0 ∨ sign x = 1) := by
  rw [sign, Double.gt_zero_bits, Double.lt_zero_bits]
  cases x.isNaN <;> cases x.neg <;> cases x.isZero <;> simp [boolToInt]

/-- C2: the scalar check `notnan x` is true exactly when `x` is not NaN: it is
true on every finite number, on both zeros and on both infinities, false on NaN
alone, and `x` is NaN iff neither `x > 0` nor `x <= 0` holds. -/
theorem notnan_scalar_contract (x : Double) :
    notnan x = (!x.isNaN)
    ∧ notnan x = (x.isFinite || x.isInf)
    ∧ x.isNaN = (!(Double.gt x Double.posZero) && !(Double.le x Double.posZero))
    ∧ notnan Double.posZero = true ∧ notnan Double.negZero = true
    ∧ notnan Double.posInf = true ∧ notnan Double.negInf = true := by
  refine ⟨notnan_eq_not_isNaN x, ?_, (loopTest_eq_isNaN x).symm, by decide, by decide,
    by decide, by decide⟩
  rw [notnan_eq_not_isNaN, Bool.eq_iff_iff]
  have he := x.expo.isLt
  simp [Double.isNaN, Double.isFinite, Double.isInf]
  omega

/-- C3: the sequence check returns `false` exactly when some index of the
sequence holds a NaN, wherever that index is; `[1.0, -2.5, 0.0, 1e308]` gives
`true` and `[1.0, NaN, 3.0]` gives `false`. -/
theorem notnanVec_false_iff_has_nan (v : Array Double) :
    (notnanVec v = false ↔ ∃ i : Nat, (v[i]?).map Double.isNaN = some true)
    ∧ notnanVec #[Double.one, Double.negTwoPointFive, Double.posZero, Double.tenPow308] = true
    ∧ notnanVec #[Double.one, Double.qNaN, Double.three] = false
    ∧ notnanVec #[Double.qNaN, Double.one, Double.three] = false
    ∧ notnanVec #[Double.one, Double.three, Double.qNaN] = false := by
  refine ⟨notnanVec_eq_false_iff v, ?_, ?_, ?_, ?_⟩ <;>
    (rw [notnanVec_eq_all_not_isNaN]; decide)

/-- C4: the sequence check equals the conjunction of the scalar check over all
elements: the loop's inline test is the negation of the scalar check on every
double, and the early exit does not change the result. -/
theorem notnanVec_eq_allPassScalar (v : Array Double) :
    notnanVec v = allPassScalar v
    ∧ (∀ x : Double, loopTest x = !notnan x)
    ∧ (notnanVec v = true ↔ ∀ (i : Nat) (x : Double), v[i]? = some x → notnan x = true) := by
  have hx : ∀ x : Double, loopTest x = !notnan x := by
    intro x
    rw [loopTest_eq_isNaN, notnan_eq_not_isNaN, Bool.not_not]
  have hall : notnanVec v = allPassScalar v := by
    rw [notnanVec_eq_all, allPassScalar]
    congr 1
    funext x
    rw [hx, Bool.not_not]
  refine ⟨hall, hx, ?_⟩
  rw [hall, allPassScalar, List.all_eq_true]
  constructor
  · intro h i x hi
    rw [Array.getElem?_eq_getElem?_toList] at hi
    exact h x (List.mem_iff_getElem?.mpr ⟨i, hi⟩)
  · intro h x hmem
    obtain ⟨i, hi⟩ := List.mem_iff_getElem?.mp hmem
    rw [← Array.getElem?_eq_getElem?_toList] at hi
    exact h i x hi

/-- C5: on the special values, `sign(+0.0) = 0`, `sign(-0.0) = 0`,
`sign(+inf) = 1`, `sign(-inf) = -1`, and `sign x = 0` for every NaN `x`. -/
theorem sign_special_values (x : Double) (hx : x.isNaN = true) :
    sign Double.posZero = 0 ∧ sign Double.negZero = 0 ∧ sign x = 0
    ∧ sign Double.posInf = 1 ∧ sign Double.negInf = -1 := by
  refine ⟨by decide, by decide, ?_, by decide, by decide⟩
  rw [sign, Double.gt_zero_bits, Double.lt_zero_bits, hx]
  simp [boolToInt]

theorem sign_special_values_witness :
    Double.qNaN.isNaN = true
    ∧ (sign Double.posZero = 0 ∧ sign Double.negZero = 0 ∧ sign Double.qNaN = 0
      ∧ sign Double.posInf = 1 ∧ sign Double.negInf = -1) :=
  ⟨by decide, sign_special_values Double.qNaN (by decide)⟩

/-- C6: for the empty sequence the sequence check returns `true`. -/
theorem notnanVec_empty : notnanVec #[] = true := by
  rw [notnanVec, notnanFrom]
  simp

/-- C8: for a validated `x` (`notnan x = true`), `sign x = 0` holds exactly when
`x` is a zero of either sign; without validation it does not: there is a `y`
with `sign y = 0` that is invalid and not a zero. -/
theorem sign_zero_iff_zero_of_valid (x : Double) (hx : notnan x = true) :
    (sign x = 0 ↔ x.isZero = true)
    ∧ ∃ y : Double, sign y = 0 ∧ notnan y = false ∧ y.isZero = false := by
  refine ⟨?_, Double.qNaN, by decide, by decide, by decide⟩
  rw [notnan_eq_not_isNaN] at hx
  have hn : x.isNaN = false := by simpa using hx
  rw [sign, Double.gt_zero_bits, Double.lt_zero_bits, hn]
  cases x.neg <;> cases x.isZero <;> simp [boolToInt]

theorem sign_zero_iff_zero_of_valid_witness :
    notnan Double.negZero = true
    ∧ ((sign Double.negZero = 0 ↔ Double.negZero.isZero = true)
      ∧ ∃ y : Double, sign y = 0 ∧ notnan y = false ∧ y.isZero = false) :=
  ⟨by decide, sign_zero_iff_zero_of_valid Double.negZero (by decide)⟩

/-- C9: the sequence check is total and never reads out of bounds: with a budget
of `size + 1` passes (or more) the loop returns `notnanVec v`; no budget ever
ends in an out-of-bounds access; every index read is below `v.size`; at most
`v.size` bodies are entered; and the loop stops at the least index holding a
NaN when there is one, at `v.size` otherwise. -/
theorem notnanVec_loop_safe (v : Array Double) (r : List Nat) (c k : Nat) :
    ∃ t acc,
      runLoop (v.size + 1 + k) (enterLoop v r c) = Outcome.returned (notnanVec v) t
      ∧ (∀ (f : Nat) (u : LoopState), runLoop f (enterLoop v r c) ≠ Outcome.outOfBounds u)
      ∧ t.reads = r ++ acc ∧ (∀ j ∈ acc, j < v.size)
      ∧ t.iters ≤ c + v.size
      ∧ t.iters = c + t.i + (if notnanVec v then 0 else 1)
      ∧ (∀ j : Nat, j < t.i → (v[j]?).map Double.isNaN = some false)
      ∧ (v[t.i]?).map Double.isNaN = (if notnanVec v then none else some true) := by
  have hall : ∀ k0, ∃ t acc,
      runLoop (v.size + 1 + k0) (enterLoop v r c) = Outcome.returned (notnanVec v) t
      ∧ t.reads = r ++ acc ∧ (∀ j ∈ acc, j < v.size)
      ∧ t.iters = c + t.i + (if notnanVec v then 0 else 1)
      ∧ (∀ j : Nat, j < t.i → (v[j]?).map Double.isNaN = some false)
      ∧ (v[t.i]?).map Double.isNaN = (if notnanVec v then none else some true) := by
    intro k0
    obtain ⟨t, acc, hrun, _, hreads, hacc, _, hpre, hat, hiters⟩ :=
      runLoop_from v.size k0 (enterLoop v r c) (Nat.zero_le _) rfl
    simp only [enterLoop, Nat.sub_zero] at hrun hreads hacc hpre hat hiters
    exact ⟨t, acc, hrun, hreads, fun j hj => (hacc j hj).2, hiters,
      fun j hj => hpre j (Nat.zero_le _) hj, hat⟩
  obtain ⟨t, acc, hrun, hreads, hacc, hiters, hpre, hat⟩ := hall k
  refine ⟨t, acc, hrun, ?_, hreads, hacc, ?_, hiters, hpre, hat⟩
  · intro f u hf
    obtain ⟨t0, _, hrun0, _⟩ := hall f
    have hm := runLoop_fuel_mono f (v.size + 1) (enterLoop v r c) _ hf (by simp)
    rw [show f + (v.size + 1) = v.size + 1 + f by omega, hrun0] at hm
    simp at hm
  · rw [hiters]
    cases hb : notnanVec v with
    | true =>
      rw [hb] at hat
      have : v.size ≤ t.i := by simpa using hat
      by_cases h : t.i ≤ v.size
      · simp; omega
      · exfalso
        have hs := hpre v.size (by omega)
        simp at hs
    | false =>
      rw [hb] at hat
      have : t.i < v.size := by
        by_contra hge
        simp [Array.getElem?_eq_none_iff.mpr (Nat.le_of_not_lt hge)] at hat
      simp; omega

/-- C10: the sequence check distributes over concatenation, and is unchanged by
any reordering of the elements. -/
theorem notnanVec_append_perm (a b c d : Array Double) (h : c.toList.Perm d.toList) :
    notnanVec (a ++ b) = (notnanVec a && notnanVec b)
    ∧ notnanVec c = notnanVec d := by
  constructor
  · simp only [notnanVec_eq_all_not_isNaN, Array.toList_append, List.all_append]
  · simp only [notnanVec_eq_all_not_isNaN]
    exact all_not_isNaN_perm _ _ h

theorem notnanVec_append_perm_witness :
    (#[Double.one, Double.qNaN, Double.three] : Array Double).toList.Perm
      (#[Double.three, Double.one, Double.qNaN] : Array Double).toList
    ∧ (notnanVec (#[Double.one, Double.negTwoPointFive] ++ #[Double.qNaN])
        = (notnanVec #[Double.one, Double.negTwoPointFive] && notnanVec #[Double.qNaN])
      ∧ notnanVec #[Double.one, Double.qNaN, Double.three]
        = notnanVec #[Double.three, Double.one, Double.qNaN]) :=
  ⟨by decide, notnanVec_append_perm #[Double.one, Double.negTwoPointFive] #[Double.qNaN]
    #[Double.one, Double.qNaN, Double.three] #[Double.three, Double.one, Double.qNaN]
    (by decide)⟩

/-- C11: `sign` is an odd function on all doubles: for every double `x` (NaN,
both zeros and both infinities included), `sign (-x) = -sign x`, where `-x` is
IEEE negation. -/
theorem sign_negate (x : Double) : sign (Double.negate x) = -sign x := by
  rw [sign_eq_key_sign, sign_eq_key_sign, Double.isNaN_negate, Double.key_negate]
  cases x.isNaN
  · simp only [Bool.false_eq_true, if_false, Int.sign_neg]
  · simp

/-- C12: `sign` is monotone for the IEEE order: whenever `x <= y` holds (which
forces both operands to be non-NaN), `sign x <= sign y`. -/
theorem sign_monotone (x y : Double) (h : Double.le x y = true) :
    sign x ≤ sign y ∧ x.isNaN = false ∧ y.isNaN = false := by
  simp only [Double.le, Bool.and_eq_true, Bool.not_eq_true', decide_eq_true_eq] at h
  obtain ⟨⟨hx, hy⟩, hk⟩ := h
  refine ⟨?_, hx, hy⟩
  rw [sign_eq_key_sign, sign_eq_key_sign, hx, hy]
  exact int_sign_mono _ _ hk

theorem sign_monotone_witness :
    Double.le Double.negTwoPointFive Double.one = true
    ∧ (sign Double.negTwoPointFive ≤ sign Double.one
      ∧ Double.negTwoPointFive.isNaN = false ∧ Double.one.isNaN = false) :=
  ⟨by decide, sign_monotone Double.negTwoPointFive Double.one (by decide)⟩

/-- C13: `sign` and the scalar check respect IEEE equality: whenever `x == y`
holds, `sign x = sign y` and `notnan x = notnan y = true`; `+0.0 == -0.0` holds,
so the two zeros are indistinguishable to both functions, while a NaN is not
equal even to itself. -/
theorem sign_notnan_respect_eq (x y : Double) (h : Double.eq x y = true) :
    sign x = sign y ∧ notnan x = notnan y ∧ notnan y = true
    ∧ x.isNaN = false ∧ y.isNaN = false
    ∧ Double.eq Double.posZero Double.negZero = true
    ∧ sign Double.posZero = sign Double.negZero
    ∧ notnan Double.posZero = notnan Double.negZero
    ∧ Double.eq Double.qNaN Double.qNaN = false := by
  simp only [Double.eq, Bool.and_eq_true, Bool.not_eq_true', decide_eq_true_eq] at h
  obtain ⟨⟨hx, hy⟩, hk⟩ := h
  refine ⟨?_, ?_, ?_, hx, hy, by decide, by decide, by decide, by decide⟩
  · rw [sign_eq_key_sign, sign_eq_key_sign, hx, hy, hk]
  · rw [notnan_eq_not_isNaN, notnan_eq_not_isNaN, hx, hy]
  · rw [notnan_eq_not_isNaN, hy]
    rfl

theorem sign_notnan_respect_eq_witness :
    Double.eq Double.negZero Double.posZero = true
    ∧ (sign Double.negZero = sign Double.posZero
      ∧ notnan Double.negZero = notnan Double.posZero ∧ notnan Double.posZero = true
      ∧ Double.negZero.isNaN = false ∧ Double.posZero.isNaN = false
      ∧ Double.eq Double.posZero Double.negZero = true
      ∧ sign Double.posZero = sign Double.negZero
      ∧ notnan Double.posZero = notnan Double.negZero
      ∧ Double.eq Double.qNaN Double.qNaN = false) :=
  ⟨by decide, sign_notnan_respect_eq Double.negZero Double.posZero (by decide)⟩

end mathUtils
